import Mathlib

set_option maxHeartbeats 1000000

/-!
Shallow embedding of the sandboxed text-editing engine in
`src/engine/server.ts`.  JS strings are modelled as lists of characters
(`Str`), absolute paths as lists of path segments, and the filesystem as an
association list from absolute paths to file contents.  Each tool handler
(`lov-view`, `lov-line-replace`, `lov-write`, `lov-rename`, `lov-delete`)
is translated into a pure function from a filesystem to a result paired
with the new filesystem.
-/

deriving instance DecidableEq for Except

namespace Engine


/-- JS strings are modelled as lists of characters. -/
abbrev Str := List Char

/-- Coerce a Lean string literal into the model type. -/
def str (s : String) : Str := s.data

/-- Split on a single separator character, as `s.split("\n")` or
`s.split("-")` or `s.split(",")`. -/
def splitChar (sep : Char) : Str → List Str
  | [] => [[]]
  | c :: rest =>
    if c = sep then [] :: splitChar sep rest
    else
      match splitChar sep rest with
      | [] => [[c]]
      | l :: ls => (c :: l) :: ls

/-- Join lines with LF, as `lines.join("\n")`. -/
def joinLF (ls : List Str) : Str := List.intercalate ['\n'] ls

/-- Model of `s.replace(/\r\n/g, "\n")`: replace every CRLF pair by LF,
scanning left to right. -/
def normCRLF : Str → Str
  | [] => []
  | '\r' :: '\n' :: rest => '\n' :: normCRLF rest
  | c :: rest => c :: normCRLF rest

/-- Model of `raw.split(/\r?\n/)`: a CRLF pair or a lone LF separates
lines, a lone CR does not.  Replacing every CRLF by LF and then splitting
on LF performs exactly that split, since the regex consumes at most one CR
and only immediately before an LF. -/
def splitLines (s : Str) : List Str := splitChar '\n' (normCRLF s)

/-- Model of `s.indexOf(pat)`: index of the leftmost occurrence of `pat`
in `s`, or `none` (JS `-1`). -/
def idxOf? (pat : Str) : Str → Option Nat
  | [] => if pat.isEmpty then some 0 else none
  | c :: rest =>
    if pat.isPrefixOf (c :: rest) then some 0
    else (idxOf? pat rest).map (· + 1)

/-- Model of `s.includes(pat)`. -/
def isSub (pat s : Str) : Bool := (idxOf? pat s).isSome

/-- Fuelled worker for `splitOnStr`. -/
def splitOnStrAux (pat : Str) : Nat → Str → List Str
  | 0, s => [s]
  | Nat.succ fuel, s =>
    match idxOf? pat s with
    | some i =>
      if pat.isEmpty then [s]
      else s.take i :: splitOnStrAux pat fuel (s.drop (i + pat.length))
    | none => [s]

/-- Model of `s.split(pat)` for a non-empty literal pattern: split at every
non-overlapping leftmost occurrence. -/
def splitOnStr (pat s : Str) : List Str := splitOnStrAux pat (s.length + 1) s

/-- Model of `s.replace(pat_g, rep)` with a global literal pattern. -/
def replaceAll (pat rep s : Str) : Str := List.intercalate rep (splitOnStr pat s)

/-- Whitespace test used by `trim` (the common ASCII whitespace). -/
def isWS (c : Char) : Bool := c == ' ' || c == '\t' || c == '\n' || c == '\r'

/-- Model of `s.trim()`. -/
def trim (s : Str) : Str := ((s.dropWhile isWS).reverse.dropWhile isWS).reverse

/-- ASCII lowercasing of one character (model of `toLowerCase` on the ASCII
range, which is all the `workspace/` prefix check needs). -/
def lowerChar (c : Char) : Char :=
  if 65 ≤ c.toNat ∧ c.toNat ≤ 90 then Char.ofNat (c.toNat + 32) else c

/-- UTF-8 byte size of one character. -/
def utf8Size (c : Char) : Nat :=
  if c.toNat < 0x80 then 1
  else if c.toNat < 0x800 then 2
  else if c.toNat < 0x10000 then 3
  else 4

/-- Model of `Buffer.byteLength(s, "utf-8")` and of the on-disk size
(`stat.size`) of a file written as UTF-8. -/
def byteLen (s : Str) : Nat := (s.map utf8Size).sum

/-- Decimal rendering of a natural number, for the `${size}` interpolations. -/
def natToStr (n : Nat) : Str := (Nat.repr n).data

/-! ## Paths

An absolute path is a list of segments.  `WORKSPACE` is an arbitrary
normalized absolute path (the source fixes it with `path.resolve`, which
leaves no `.`, `..` or empty segments). -/

/-- A path segment. -/
abbrev Seg := Str

/-- An absolute path, as its list of segments below the filesystem root. -/
abbrev AbsPath := List Seg

/-- Split a relative path string into raw segments on `/`. -/
def splitSlash (p : Str) : List Seg := splitChar '/' p

/-- Node path normalization on a segment list: drop empty and `.` segments,
let `..` pop the previous segment (staying put at the root), keep the rest.
This is `path.resolve`/`path.join` normalization for absolute paths. -/
def resolveSegs (segs : List Seg) : List Seg :=
  segs.foldl
    (fun acc s =>
      if s = [] ∨ s = str "." then acc
      else if s = str ".." then acc.dropLast
      else acc ++ [s])
    []

/-- Model of `isPathInside(child, parent)`: the resolved parent (with a
trailing separator) is a string prefix of the resolved child, i.e. the
parent segment list is a prefix of the child segment list. -/
def isPathInside (childPath parentPath : List Seg) : Bool :=
  (resolveSegs parentPath).isPrefixOf (resolveSegs childPath)

/-- Model of `safeJoin(base, ...segments)`: reject any segment containing
the substring `..`, join and normalize, and require the result to stay
inside `base`. -/
def safeJoin (base : AbsPath) (segments : List Str) : Except Str AbsPath :=
  if segments.any (fun seg => isSub (str "..") seg) then
    Except.error (str "Path traversal blocked")
  else
    let joined := resolveSegs (base ++ segments.flatMap splitSlash)
    if isPathInside joined base then Except.ok joined
    else Except.error (str "Path escapes workspace")

/-- Model of `normalizeWorkspaceRel(p)`: strip leading separators, turn
backslashes into slashes and drop a case-insensitive `workspace/` prefix. -/
def normalizeWorkspaceRel (p : Str) : Str :=
  let rel := (p.dropWhile (fun c => c == '\\' || c == '/')).map
    (fun c => if c == '\\' then '/' else c)
  if (str "workspace/").isPrefixOf (rel.map lowerChar) then
    rel.drop (str "workspace/").length
  else rel

/-- Model of `isForbiddenPath(absPath)` relative to the workspace root `W`:
paths outside `W`, paths with a `node_modules` or `.git` component, and
basenames starting with `.env` are forbidden. -/
def isForbiddenPath (W : AbsPath) (abs : AbsPath) : Option Str :=
  if !(W.isPrefixOf abs) then some (str "Path escapes workspace")
  else
    let parts := abs.drop W.length
    if parts.contains (str "node_modules") then
      some (str "Operation not allowed in node_modules")
    else if parts.contains (str ".git") then
      some (str "Operation not allowed in .git")
    else
      match abs.getLast? with
      | some base =>
        if (str ".env").isPrefixOf base then
          some (str "Operation not allowed on .env files")
        else none
      | none => none

/-! ## Filesystem -/

/-- The filesystem: an association list from absolute paths to contents. -/
abbrev FS := List (AbsPath × Str)

/-- Read a file. -/
def fsRead (fs : FS) (p : AbsPath) : Option Str :=
  (fs.find? (fun e => e.1 == p)).map (·.2)

/-- Write (create or overwrite) a file. -/
def fsWrite (fs : FS) (p : AbsPath) (c : Str) : FS :=
  if (fsRead fs p).isSome then fs.map (fun e => if e.1 == p then (e.1, c) else e)
  else fs ++ [(p, c)]

/-- Remove a file. -/
def fsErase (fs : FS) (p : AbsPath) : FS := fs.filter (fun e => !(e.1 == p))

/-- Model of `fs.renameSync(pFrom, pTo)`. -/
def fsRename (fs : FS) (pFrom pTo : AbsPath) : FS :=
  match fsRead fs pFrom with
  | some c => fsWrite (fsErase fs pFrom) pTo c
  | none => fs

/-- The sibling backup path `abs + ".bak"`. -/
def bakPath (p : AbsPath) : AbsPath :=
  match p.getLast? with
  | some l => p.dropLast ++ [l ++ str ".bak"]
  | none => [str ".bak"]

/-! ## The `lov-line-replace` handler -/

/-- Result envelope of `lov-line-replace`. -/
inductive LRResult
  | ok (file : Str) (startLine endLine : Nat)
  | error (file note : Str)
deriving DecidableEq

/-- The ellipsis token `"\n...\n"` of the line-replace search protocol. -/
def ellipsisToken : Str := str "\n...\n"

/-- The mutation tail of `lov-line-replace`, reached only after all
validation passed: best-effort backup, splice the replacement lines over
lines `[startL, endL]`, persist, and report the new end line. -/
def lrCommit (fs : FS) (abs : AbsPath) (rel raw : Str) (startL endL : Nat)
    (replaceArg : Str) : LRResult × FS :=
  let lines := splitLines raw
  let fsB := fsWrite fs (bakPath abs) raw
  let replaceLines := splitChar '\n' (normCRLF replaceArg)
  let newLines := lines.take (startL - 1) ++ replaceLines ++ lines.drop endL
  let fsW := fsWrite fsB abs (joinLF newLines)
  (LRResult.ok rel startL ((startL - 1) + replaceLines.length), fsW)

/-- Model of the `lov-line-replace` tool handler.  The line-number
arguments are modelled as naturals (the handler clamps them below 1 the
same way `Math.max` does; the `NaN` path of `Number()` is not modelled). -/
def lovLineReplace (W : AbsPath) (fs : FS) (filePath searchArg : Str)
    (firstReplacedLine lastReplacedLine : Nat) (replaceArg : Str) :
    LRResult × FS :=
  let rel := normalizeWorkspaceRel filePath
  match safeJoin W [rel] with
  | Except.error msg => (LRResult.error rel msg, fs)
  | Except.ok abs =>
    match isForbiddenPath W abs with
    | some reason => (LRResult.error rel reason, fs)
    | none =>
      match fsRead fs abs with
      | none =>
        (LRResult.error rel (str "File not found. Use paths relative to workspace root, e.g. \x27src/App.tsx\x27 (no \x27workspace/\x27 prefix)."), fs)
      | some raw =>
        let lines := splitLines raw
        let startL := max 1 firstReplacedLine
        let endL := max startL lastReplacedLine
        if startL > lines.length then
          (LRResult.error rel (str "Start line beyond EOF"), fs)
        else
          let targetBlock := joinLF ((lines.take (min endL lines.length)).drop (startL - 1))
          let searchNorm := normCRLF searchArg
          if isSub (str "...") searchNorm then
            match idxOf? ellipsisToken searchNorm with
            | none =>
              match splitOnStr ellipsisToken searchNorm with
              | [pre, suf] =>
                if !(pre.isPrefixOf targetBlock) || !(suf.isSuffixOf targetBlock) then
                  (LRResult.error rel (str "Prefix/suffix do not match target lines"), fs)
                else lrCommit fs abs rel raw startL endL replaceArg
              | _ => (LRResult.error rel (str "Ellipsis must be on its own line"), fs)
            | some idx =>
              let pre := searchNorm.take idx
              let suf := searchNorm.drop (idx + ellipsisToken.length)
              if !(pre.isPrefixOf targetBlock) || !(suf.isSuffixOf targetBlock) then
                (LRResult.error rel (str "Prefix/suffix do not match target lines"), fs)
              else lrCommit fs abs rel raw startL endL replaceArg
          else
            if targetBlock ≠ searchNorm then
              (LRResult.error rel (str "Search content mismatch in specified range"), fs)
            else lrCommit fs abs rel raw startL endL replaceArg

/-- The block of addressed lines that `lov-line-replace` validates
against: lines `max 1 first` through `max (max 1 first) last` of the file
(the end clamped to the file length), joined with LF. -/
def lrTargetBlock (raw : Str) (first last : Nat) : Str :=
  joinLF (((splitLines raw).take (min (max (max 1 first) last) (splitLines raw).length)).drop (max 1 first - 1))

/-! ## The `lov-write` handler -/

/-- Result envelope of `lov-write`. -/
inductive WResult
  | ok (file note : Str)
  | error (file note : Str)
deriving DecidableEq

/-- Position-wise count of differing lines between the previous and the new
line sequence, missing positions reading as `""` — the naive changed-lines
loop of `lov-write`.  Once the old lines run out, each remaining non-empty
new line counts as one change.  (The source breaks out of the loop once the
count passes 400, which does not change the `changed > 400` test.) -/
def changedCount : List Str → List Str → Nat
  | [], bs => (bs.filter (fun b => !(b == []))).length
  | a :: as, [] => (if a = [] then 0 else 1) + changedCount as []
  | a :: as, b :: bs => (if a = b then 0 else 1) + changedCount as bs

/-- Model of the `lov-write` tool handler.  Directory creation
(`mkdirSync`) has no observable effect on the flat file map. -/
def lovWrite (W : AbsPath) (fs : FS) (filePath content : Str) : WResult × FS :=
  let rel := normalizeWorkspaceRel filePath
  if byteLen content > 200 * 1024 then
    (WResult.error rel (str "Content exceeds 200KB; use lov-line-replace"), fs)
  else
    match safeJoin W [rel] with
    | Except.error msg => (WResult.error rel msg, fs)
    | Except.ok abs =>
      match isForbiddenPath W abs with
      | some reason => (WResult.error rel reason, fs)
      | none =>
        match fsRead fs abs with
        | some prev =>
          let prevLines := splitLines prev
          let newLines := splitChar '\n' (normCRLF content)
          let changed := changedCount prevLines newLines
          if changed > 400 then
            (WResult.error rel (str "Change exceeds 400 lines; use lov-line-replace"), fs)
          else
            let fsB := fsWrite fs (bakPath abs) prev
            (WResult.ok rel (str "Overwritten with small changes"),
              fsWrite fsB abs (joinLF newLines))
        | none =>
          (WResult.ok rel (str "File created"), fsWrite fs abs (normCRLF content))

/-! ## The `lov-rename` handler -/

/-- Result envelope of `lov-rename`. -/
inductive RenResult
  | ok (file note : Str)
  | error (file note : Str)
deriving DecidableEq

/-- Model of the `lov-rename` tool handler.  When either `safeJoin` throws,
the catch block echoes the normalized new path (both arguments are always
present in the model). -/
def lovRename (W : AbsPath) (fs : FS) (originalFilePath newFilePath : Str)
    (confirm : Bool) : RenResult × FS :=
  let relFrom := normalizeWorkspaceRel originalFilePath
  let relTo := normalizeWorkspaceRel newFilePath
  match safeJoin W [relFrom], safeJoin W [relTo] with
  | Except.error msg, _ => (RenResult.error relTo msg, fs)
  | _, Except.error msg => (RenResult.error relTo msg, fs)
  | Except.ok absFrom, Except.ok absTo =>
    match isForbiddenPath W absFrom with
    | some r => (RenResult.error relFrom r, fs)
    | none =>
      match isForbiddenPath W absTo with
      | some r => (RenResult.error relTo r, fs)
      | none =>
        if (fsRead fs absFrom).isNone then
          (RenResult.error relFrom (str "Source not found"), fs)
        else
          let relFromDir := (absFrom.drop W.length).dropLast
          let relToDir := (absTo.drop W.length).dropLast
          if relFromDir ≠ relToDir then
            (RenResult.error relFrom (str "Cross-directory renames are blocked"), fs)
          else
            if (fsRead fs absTo).isSome then
              if !confirm then
                (RenResult.error relTo (str "Target exists; pass confirm:true to overwrite (backup will be created)"), fs)
              else
                let fs1 := fsRename fs absTo (bakPath absTo)
                (RenResult.ok relTo (str "Renamed (target backup created if existed)"),
                  fsRename fs1 absFrom absTo)
            else
              (RenResult.ok relTo (str "Renamed (target backup created if existed)"),
                fsRename fs absFrom absTo)

/-! ## The `lov-delete` handler -/

/-- Result envelope of `lov-delete`. -/
inductive DelResult
  | notEnabled (tool : Str)
  | error (file note : Str)
  | confirmRequired (file note : Str)
  | confirmAck (file note : Str)
deriving DecidableEq

/-- The delete feature flag is hard-wired off in the source. -/
def ENABLE_DELETE : Bool := false

/-- Model of the `lov-delete` tool handler, with the feature flag as an
explicit parameter. -/
def lovDeleteCore (enableDelete : Bool) (W : AbsPath) (fs : FS)
    (filePath : Str) (confirm : Bool) : DelResult × FS :=
  if !enableDelete then (DelResult.notEnabled (str "lov-delete"), fs)
  else
    let rel := normalizeWorkspaceRel filePath
    match safeJoin W [rel] with
    | Except.error msg => (DelResult.error rel msg, fs)
    | Except.ok abs =>
      match isForbiddenPath W abs with
      | some r => (DelResult.error rel r, fs)
      | none =>
        match fsRead fs abs with
        | none =>
          (DelResult.error rel (str "File not found. Use paths relative to workspace root, e.g. \x27src/App.tsx\x27 (no \x27workspace/\x27 prefix)."), fs)
        | some content =>
          let size := byteLen content
          if !confirm then
            (DelResult.confirmRequired rel
              (str "About to delete " ++ natToStr size ++ str " bytes. Re-run with confirm:true to proceed."), fs)
          else
            (DelResult.confirmAck rel
              (str "Deletion requested for " ++ natToStr size ++ str " bytes. Confirm in chat to proceed."), fs)

/-- The shipped `lov-delete` handler (flag off). -/
def lovDelete (W : AbsPath) (fs : FS) (filePath : Str) (confirm : Bool) :
    DelResult × FS :=
  lovDeleteCore ENABLE_DELETE W fs filePath confirm

/-! ## The `lov-view` handler -/

/-- Result envelope of `lov-view`: raw text on success, a JSON error object
(with an optional `file` echo) otherwise. -/
inductive ViewResult
  | ok (text : Str)
  | error (note : Str) (file : Option Str)
deriving DecidableEq

/-- Numeric value of a digit run. -/
def digitsVal (l : List Char) : Nat := l.foldl (fun n c => n * 10 + (c.toNat - 48)) 0

/-- Model of `parseInt(s, 10)`: skip whitespace, optional sign, read the
leading digit run; `none` is JS `NaN`. -/
def parsePrefixInt (s : Str) : Option Int :=
  let s1 := s.dropWhile isWS
  let signed : Int × Str :=
    match s1 with
    | '-' :: rest => (-1, rest)
    | '+' :: rest => (1, rest)
    | _ => (1, s1)
  let digs := signed.2.takeWhile (fun c => 48 ≤ c.toNat ∧ c.toNat ≤ 57)
  if digs = [] then none else some (signed.1 * (digitsVal digs : Int))

/-- Model of `parseLineRanges(input)`: split on commas, trim, drop empty
tokens, split each on `-`, clamp start to 1 and end to start; a
non-numeric bound throws. -/
def parseLineRanges (input : Str) : Except Str (List (Int × Int)) :=
  let toks := ((splitChar ',' input).map trim).filter (fun t => !t.isEmpty)
  toks.mapM (fun range =>
    let ps := splitChar '-' range
    let startStr := ps.getD 0 []
    let endStr := ps.getD 1 []
    match parsePrefixInt startStr, parsePrefixInt endStr with
    | some s0, some e0 =>
      let s := max 1 s0
      Except.ok (s, max s e0)
    | _, _ => Except.error (str "Invalid lines range format"))

/-- Model of the `lov-view` tool handler.  Note that it performs no
`isForbiddenPath` check. -/
def lovView (W : AbsPath) (fs : FS) (filePath : Str) (linesArg : Option Str) :
    ViewResult :=
  let rel := normalizeWorkspaceRel filePath
  match safeJoin W [rel] with
  | Except.error msg => ViewResult.error msg none
  | Except.ok abs =>
    match fsRead fs abs with
    | none =>
      ViewResult.error (str "File not found. Use paths relative to workspace root, e.g. \x27src/App.tsx\x27 (no \x27workspace/\x27 prefix).") (some rel)
    | some raw =>
      let allLines := splitLines raw
      let outputE : Except Str Str :=
        match linesArg with
        | some l =>
          if (trim l).length > 0 then
            (parseLineRanges l).map (fun ranges =>
              joinLF (ranges.map (fun r =>
                joinLF ((allLines.take r.2.toNat).drop (r.1.toNat - 1)))))
          else Except.ok (joinLF (allLines.take (min 500 allLines.length)))
        | none => Except.ok (joinLF (allLines.take (min 500 allLines.length)))
      match outputE with
      | Except.error msg => ViewResult.error msg none
      | Except.ok output =>
        ViewResult.ok (if output.length > 20000 then output.take 20000 else output)

/-! ## The glob compiler

`globToRegExp` builds a regular-expression *string* by successive global
string replacements and then compiles it anchored at both ends.  The
replacements are modelled verbatim; the resulting pattern string is then
interpreted by a small regular-expression engine (syntax subset actually
producible by the compiler: literals, escaped literals, `.`, `[^…]`
classes, groups and postfix `*`). -/

/-- The characters escaped by the first replacement,
`/[.+^${}()|\[\]\\]/g → "\\$&"`. -/
def regexEscapeSet : List Char :=
  ['.', '+', '^', '$', '\x7b', '\x7d', '(', ')', '|', '[', ']', '\\']

/-- The escaping pass of `globToRegExp`. -/
def escapeRegExpChars (s : Str) : Str :=
  s.flatMap (fun c => if regexEscapeSet.contains c then ['\\', c] else [c])

/-- Model of `globToRegExp(glob)` up to the final `new RegExp("^" + … + "$")`:
the successive global replacements applied to the escaped glob.  (Note that
each replacement rescans the whole accumulated string, including text
injected by the previous replacements.) -/
def globToRegExp (glob : Str) : Str :=
  let e1 := escapeRegExpChars glob
  let e2 := replaceAll (str "**/") (str "(?:.*?/)?") e1
  let e3 := replaceAll (str "**") (str ".*") e2
  let e4 := replaceAll (str "*") (str "[^/]*") e3
  replaceAll (str "?") (str ".") e4

/-- Regular expressions, covering the syntax the compiled patterns use. -/
inductive RE
  | emp
  | eps
  | lit (c : Char)
  | anyChar
  | cls (neg : Bool) (cs : List Char)
  | seq (a b : RE)
  | alt (a b : RE)
  | star (a : RE)
deriving DecidableEq

/-- Whether a regular expression accepts the empty string. -/
def RE.nullable : RE → Bool
  | .emp => false
  | .eps => true
  | .lit _ => false
  | .anyChar => false
  | .cls _ _ => false
  | .seq a b => a.nullable && b.nullable
  | .alt a b => a.nullable || b.nullable
  | .star _ => true

/-- Brzozowski derivative.  A JS `.` matches everything except line
terminators; a negated class matches every other character. -/
def RE.deriv : RE → Char → RE
  | .emp, _ => .emp
  | .eps, _ => .emp
  | .lit c, a => if a = c then .eps else .emp
  | .anyChar, a => if a = '\n' ∨ a = '\r' then .emp else .eps
  | .cls neg cs, a =>
    if neg then (if cs.contains a then .emp else .eps)
    else (if cs.contains a then .eps else .emp)
  | .seq x y, a =>
    if x.nullable then .alt (.seq (x.deriv a) y) (y.deriv a)
    else .seq (x.deriv a) y
  | .alt x y, a => .alt (x.deriv a) (y.deriv a)
  | .star x, a => .seq (x.deriv a) (.star x)

/-- Whole-string matching via derivatives (the `^…$`-anchored `test`). -/
def rmatch (r : RE) (s : Str) : Bool :=
  (s.foldl RE.deriv r).nullable

/-- Characters of a `[^…]` class up to the closing bracket. -/
def parseClsChars : Str → Option (List Char × Str)
  | ']' :: rest => some ([], rest)
  | c :: rest => (parseClsChars rest).map (fun p => (c :: p.1, p.2))
  | [] => none

/-- Characters that a bare literal atom may not start with. -/
def reSpecialChars : List Char := ['*', '+', '?', ')', ']', '|', '^', '$', '\x7b']

mutual

/-- Parse a sequence of factors, stopping at `)` or the end. -/
def parseSeq : Nat → Str → Option (RE × Str)
  | 0, _ => none
  | Nat.succ fuel, cs =>
    match cs with
    | [] => some (.eps, [])
    | ')' :: _ => some (.eps, cs)
    | _ =>
      match parseFactor fuel cs with
      | none => none
      | some (a, rest) =>
        match parseSeq fuel rest with
        | none => none
        | some (b, rest2) => some (.seq a b, rest2)

/-- Parse one atom with an optional postfix `*`. -/
def parseFactor : Nat → Str → Option (RE × Str)
  | 0, _ => none
  | Nat.succ fuel, cs =>
    match parseBase fuel cs with
    | none => none
    | some (a, rest) =>
      match rest with
      | '*' :: r2 => some (.star a, r2)
      | _ => some (a, rest)

/-- Parse one atom. -/
def parseBase : Nat → Str → Option (RE × Str)
  | 0, _ => none
  | Nat.succ fuel, cs =>
    match cs with
    | '\\' :: c :: rest => some (.lit c, rest)
    | '.' :: rest => some (.anyChar, rest)
    | '[' :: '^' :: rest =>
      match parseClsChars rest with
      | some (l, rest2) => some (.cls true l, rest2)
      | none => none
    | '(' :: rest =>
      match parseSeq fuel rest with
      | some (r, ')' :: rest2) => some (r, rest2)
      | _ => none
    | c :: rest =>
      if reSpecialChars.contains c then none else some (.lit c, rest)
    | [] => none

end

/-- Parse a full pattern string into a regular expression. -/
def parseRE (s : Str) : Option RE :=
  match parseSeq (s.length + 2) s with
  | some (r, []) => some r
  | _ => none

/-- Model of `globToRegExp(glob).test(path)`: compile the glob, interpret
the compiled pattern string, and match the whole path (the source anchors
the pattern with `^` and `$`). -/
def globTest (glob path : Str) : Bool :=
  match parseRE (globToRegExp glob) with
  | some r => rmatch r path
  | none => false

/-! ## General lemmas about the string model -/

theorem idxOf?_isPrefixOf_drop (pat : Str) :
    ∀ (s : Str) (i : Nat), idxOf? pat s = some i → pat.isPrefixOf (s.drop i) = true := by
  intro s
  induction s with
  | nil =>
    intro i h
    simp only [idxOf?] at h
    split at h
    · rename_i hemp
      cases h
      simp [List.isPrefixOf, List.isEmpty_iff.mp hemp]
    · cases h
  | cons c rest ih =>
    intro i h
    simp only [idxOf?] at h
    split at h
    · rename_i hpre
      cases h
      simpa using hpre
    · rcases Option.map_eq_some'.mp h with ⟨j, hj, rfl⟩
      simpa using ih j hj

theorem idxOf?_decomp (pat s : Str) (i : Nat) (h : idxOf? pat s = some i) :
    s = s.take i ++ pat ++ s.drop (i + pat.length) := by
  have hp : pat <+: s.drop i := List.isPrefixOf_iff_prefix.mp (idxOf?_isPrefixOf_drop pat s i h)
  rcases hp with ⟨t, ht⟩
  have hdrop : s.drop (i + pat.length) = t := by
    have h2 : (s.drop i).drop pat.length = s.drop (i + pat.length) := by
      rw [List.drop_drop]
    rw [← h2, ← ht]
    simp
  rw [hdrop, List.append_assoc, ht, List.take_append_drop]

theorem isSub_of_infix (pat : Str) : ∀ (s : Str), pat <:+: s → isSub pat s = true := by
  intro s
  induction s with
  | nil =>
    intro h
    have : pat = [] := List.eq_nil_of_infix_nil h
    simp [isSub, idxOf?, this]
  | cons c rest ih =>
    intro h
    rcases List.infix_cons_iff.mp h with hpre | hinf
    · simp [isSub, idxOf?, List.isPrefixOf_iff_prefix.mpr hpre]
    · have hrec := ih hinf
      simp only [isSub, idxOf?] at *
      split
      · simp
      · simpa using hrec

theorem isSub_dots_of_marker (s : Str) (i : Nat)
    (h : idxOf? ellipsisToken s = some i) : isSub (str "...") s = true := by
  apply isSub_of_infix
  have hdec := idxOf?_decomp ellipsisToken s i h
  have h1 : (str "...") <:+: ellipsisToken := ⟨['\n'], ['\n'], rfl⟩
  have h2 : ellipsisToken <:+: s := ⟨s.take i, s.drop (i + ellipsisToken.length), hdec.symm⟩
  exact h1.trans h2

theorem splitOnStr_of_idx_none (pat s : Str) (h : idxOf? pat s = none) :
    splitOnStr pat s = [s] := by
  simp [splitOnStr, splitOnStrAux, h]

/-! ## Claims about `lov-line-replace` validation (C1, C3, C4) -/

/-- C1: for an existing, non-forbidden file and a valid line range, a
line-replace whose search template contains no ellipsis substring `...`
succeeds (status ok, echoing the clamped start line and the new end line)
if and only if the addressed target block equals the line-ending-normalized
template exactly; any deviation yields exactly the content-mismatch error
with the filesystem untouched. -/
theorem c1_line_replace_no_ellipsis_exact_iff
    (W : AbsPath) (fs : FS) (fp search replace : Str) (first last : Nat)
    (abs : AbsPath) (raw : Str)
    (hsj : safeJoin W [normalizeWorkspaceRel fp] = Except.ok abs)
    (hforb : isForbiddenPath W abs = none)
    (hread : fsRead fs abs = some raw)
    (hstart : max 1 first ≤ (splitLines raw).length)
    (hell : isSub (str "...") (normCRLF search) = false) :
    ((lovLineReplace W fs fp search first last replace).1 =
        LRResult.ok (normalizeWorkspaceRel fp) (max 1 first)
          ((max 1 first - 1) + (splitChar '\n' (normCRLF replace)).length)
      ↔ lrTargetBlock raw first last = normCRLF search) ∧
    (lrTargetBlock raw first last ≠ normCRLF search →
      lovLineReplace W fs fp search first last replace =
        (LRResult.error (normalizeWorkspaceRel fp) (str "Search content mismatch in specified range"), fs)) := by
  have hnotgt : ¬ (max 1 first > (splitLines raw).length) := by omega
  by_cases heq : lrTargetBlock raw first last = normCRLF search
  · constructor
    · simp only [lovLineReplace, hsj, hforb, hread, hell, if_neg hnotgt, Bool.false_eq_true,
        if_false, lrTargetBlock] at *
      simp [heq, lrCommit]
    · intro hne; exact absurd heq hne
  · constructor
    · simp only [lovLineReplace, hsj, hforb, hread, hell, if_neg hnotgt, Bool.false_eq_true,
        if_false, lrTargetBlock] at *
      simp [heq]
    · intro hne
      simp only [lovLineReplace, hsj, hforb, hread, hell, if_neg hnotgt, Bool.false_eq_true,
        if_false, lrTargetBlock] at *
      simp [heq]

/-- Witness for C1: replacing lines 2-3 of a five-line file with the exact
template succeeds and reports start 2, new end 2. -/
theorem c1_witness :
    (lovLineReplace [str "w"] [([str "w", str "a.txt"], str "L1\nL2\nL3\nL4\nL5")]
        (str "a.txt") (str "L2\nL3") 2 3 (str "X")).1 =
      LRResult.ok (str "a.txt") 2 2 :=
  ((c1_line_replace_no_ellipsis_exact_iff [str "w"]
      [([str "w", str "a.txt"], str "L1\nL2\nL3\nL4\nL5")]
      (str "a.txt") (str "L2\nL3") (str "X") 2 3 _ _ rfl rfl rfl (by decide) rfl).1).mpr
    (by decide)

/-- C3 counterexample: a template in which the own-line ellipsis marker
occurs twice (at indices 1 and 7) is not rejected: the handler splits at
the first occurrence, treats the rest of the template as the suffix, and
the edit succeeds with status ok, contradicting the claimed
`MalformedTemplateError` hard failure. -/
theorem c3_counterexample :
    (idxOf? ellipsisToken (str "A\n...\nB\n...\nC") = some 1 ∧
     idxOf? ellipsisToken ((str "A\n...\nB\n...\nC").drop 6) = some 1) ∧
    (lovLineReplace [str "w"] [([str "w", str "f.txt"], str "A\nx\nB\n...\nC")]
        (str "f.txt") (str "A\n...\nB\n...\nC") 1 5 (str "Z")).1 =
      LRResult.ok (str "f.txt") 1 1 := by decide

/-- C3 amended: a template containing the substring `...` is handled as
follows: if the own-line marker `"\n...\n"` occurs, the template is split
at its first occurrence into one prefix and one suffix (later occurrences
are simply part of the suffix, not an error) and the edit proceeds by the
prefix/suffix validation; if `...` occurs but never as a full own-line
marker, the result is the malformed-template error and no substitution is
performed. -/
theorem c3_first_marker_split
    (W : AbsPath) (fs : FS) (fp search replace : Str) (first last : Nat)
    (abs : AbsPath) (raw : Str)
    (hsj : safeJoin W [normalizeWorkspaceRel fp] = Except.ok abs)
    (hforb : isForbiddenPath W abs = none)
    (hread : fsRead fs abs = some raw)
    (hstart : max 1 first ≤ (splitLines raw).length)
    (hdots : isSub (str "...") (normCRLF search) = true) :
    (idxOf? ellipsisToken (normCRLF search) = none →
      lovLineReplace W fs fp search first last replace =
        (LRResult.error (normalizeWorkspaceRel fp) (str "Ellipsis must be on its own line"), fs)) ∧
    (∀ idx, idxOf? ellipsisToken (normCRLF search) = some idx →
      lovLineReplace W fs fp search first last replace =
        (if ((normCRLF search).take idx).isPrefixOf (lrTargetBlock raw first last) = true ∧
            ((normCRLF search).drop (idx + ellipsisToken.length)).isSuffixOf (lrTargetBlock raw first last) = true
         then lrCommit fs abs (normalizeWorkspaceRel fp) raw (max 1 first) (max (max 1 first) last) replace
         else (LRResult.error (normalizeWorkspaceRel fp) (str "Prefix/suffix do not match target lines"), fs))) := by
  have hnotgt : ¬ (max 1 first > (splitLines raw).length) := by omega
  constructor
  · intro hnone
    simp only [lovLineReplace, hsj, hforb, hread, hdots, hnone, if_neg hnotgt,
      splitOnStr_of_idx_none _ _ hnone]
    simp
  · intro idx hidx
    cases ha : ((normCRLF search).take idx).isPrefixOf (lrTargetBlock raw first last) <;>
      cases hb : ((normCRLF search).drop (idx + ellipsisToken.length)).isSuffixOf (lrTargetBlock raw first last) <;>
      simp only [lrTargetBlock] at ha hb ⊢ <;>
      simp only [lovLineReplace, hsj, hforb, hread, hdots, hidx, if_neg hnotgt] <;>
      simp [ha, hb]

/-- Witness for the amended C3: the double-marker template of the
counterexample is split at its first occurrence (index 1) and the edit
reduces to the prefix/suffix validation. -/
theorem c3_witness :
    lovLineReplace [str "w"] [([str "w", str "f.txt"], str "A\nx\nB\n...\nC")]
        (str "f.txt") (str "A\n...\nB\n...\nC") 1 5 (str "Z") =
      (if ((normCRLF (str "A\n...\nB\n...\nC")).take 1).isPrefixOf
            (lrTargetBlock (str "A\nx\nB\n...\nC") 1 5) = true ∧
          ((normCRLF (str "A\n...\nB\n...\nC")).drop (1 + ellipsisToken.length)).isSuffixOf
            (lrTargetBlock (str "A\nx\nB\n...\nC") 1 5) = true
       then lrCommit [([str "w", str "f.txt"], str "A\nx\nB\n...\nC")]
          [str "w", str "f.txt"] (str "f.txt") (str "A\nx\nB\n...\nC") (max 1 1) (max (max 1 1) 5) (str "Z")
       else (LRResult.error (str "f.txt") (str "Prefix/suffix do not match target lines"),
          [([str "w", str "f.txt"], str "A\nx\nB\n...\nC")])) :=
  (c3_first_marker_split [str "w"] [([str "w", str "f.txt"], str "A\nx\nB\n...\nC")]
      (str "f.txt") (str "A\n...\nB\n...\nC") (str "Z") 1 5 _ _ rfl rfl rfl (by decide) rfl).2
    1 rfl

/-- C4: for an existing, non-forbidden file and a valid line range, a
line-replace whose normalized search template carries the own-line
ellipsis marker (first occurrence at `idx`) succeeds if and only if the
addressed target block starts with the template prefix and ends with the
template suffix — regardless of the middle, including a zero-length
middle — and a failed prefix/suffix validation yields exactly the
mismatch error with the filesystem untouched. -/
theorem c4_line_replace_ellipsis_iff
    (W : AbsPath) (fs : FS) (fp search replace : Str) (first last : Nat)
    (abs : AbsPath) (raw : Str) (idx : Nat)
    (hsj : safeJoin W [normalizeWorkspaceRel fp] = Except.ok abs)
    (hforb : isForbiddenPath W abs = none)
    (hread : fsRead fs abs = some raw)
    (hstart : max 1 first ≤ (splitLines raw).length)
    (hidx : idxOf? ellipsisToken (normCRLF search) = some idx) :
    ((lovLineReplace W fs fp search first last replace).1 =
        LRResult.ok (normalizeWorkspaceRel fp) (max 1 first)
          ((max 1 first - 1) + (splitChar '\n' (normCRLF replace)).length)
      ↔ ((normCRLF search).take idx).isPrefixOf (lrTargetBlock raw first last) = true ∧
        ((normCRLF search).drop (idx + ellipsisToken.length)).isSuffixOf (lrTargetBlock raw first last) = true) ∧
    (¬ (((normCRLF search).take idx).isPrefixOf (lrTargetBlock raw first last) = true ∧
        ((normCRLF search).drop (idx + ellipsisToken.length)).isSuffixOf (lrTargetBlock raw first last) = true) →
      lovLineReplace W fs fp search first last replace =
        (LRResult.error (normalizeWorkspaceRel fp) (str "Prefix/suffix do not match target lines"), fs)) := by
  have hnotgt : ¬ (max 1 first > (splitLines raw).length) := by omega
  have htrue : isSub (str "...") (normCRLF search) = true :=
    isSub_dots_of_marker _ idx hidx
  cases ha : ((normCRLF search).take idx).isPrefixOf (lrTargetBlock raw first last) <;>
    cases hb : ((normCRLF search).drop (idx + ellipsisToken.length)).isSuffixOf (lrTargetBlock raw first last) <;>
    simp only [lrTargetBlock] at ha hb ⊢ <;>
    simp only [lovLineReplace, hsj, hforb, hread, htrue, hidx, if_neg hnotgt] <;>
    simp [ha, hb, lrCommit]

/-- Witness for C4: an ellipsis template with a zero-length middle
(`"L2\n...\nL3"` against actual content `"L2\nL3"`) succeeds. -/
theorem c4_witness :
    (lovLineReplace [str "w"] [([str "w", str "a.txt"], str "L1\nL2\nL3\nL4\nL5")]
        (str "a.txt") (str "L2\n...\nL3") 2 3 (str "X")).1 =
      LRResult.ok (str "a.txt") 2 2 :=
  ((c4_line_replace_ellipsis_iff [str "w"]
      [([str "w", str "a.txt"], str "L1\nL2\nL3\nL4\nL5")]
      (str "a.txt") (str "L2\n...\nL3") (str "X") 2 3 _ _ 2 rfl rfl rfl (by decide) rfl).1).mpr
    (by decide)

/-! ## C5: errors never mutate -/

theorem lr_snd_or_ok (W : AbsPath) (fs : FS) (fp search replace : Str) (first last : Nat) :
    (lovLineReplace W fs fp search first last replace).2 = fs ∨
      ∃ s e, (lovLineReplace W fs fp search first last replace).1 =
        LRResult.ok (normalizeWorkspaceRel fp) s e := by
  simp only [lovLineReplace]
  repeat' split
  all_goals first
    | exact Or.inl rfl
    | exact Or.inr ⟨_, _, rfl⟩

/-- C5: whenever `lov-line-replace` returns an error result — for any
reason whatsoever — the filesystem (in particular the target file) is
exactly what it was before the call: validation is fully completed before
any mutation. -/
theorem c5_error_leaves_fs_unchanged
    (W : AbsPath) (fs : FS) (fp search replace : Str) (first last : Nat)
    (f note : Str)
    (h : (lovLineReplace W fs fp search first last replace).1 = LRResult.error f note) :
    (lovLineReplace W fs fp search first last replace).2 = fs := by
  rcases lr_snd_or_ok W fs fp search replace first last with h2 | ⟨s, e, h1⟩
  · exact h2
  · rw [h1] at h
    exact LRResult.noConfusion h

/-- Witness for C5: a mismatching template leaves the filesystem
byte-identical. -/
theorem c5_witness :
    (lovLineReplace [str "w"] [([str "w", str "a.txt"], str "L1\nL2\nL3\nL4\nL5")]
        (str "a.txt") (str "WRONG") 2 3 (str "X")).2 =
      [([str "w", str "a.txt"], str "L1\nL2\nL3\nL4\nL5")] :=
  c5_error_leaves_fs_unchanged [str "w"]
    [([str "w", str "a.txt"], str "L1\nL2\nL3\nL4\nL5")]
    (str "a.txt") (str "WRONG") (str "X") 2 3
    (str "a.txt") (str "Search content mismatch in specified range") (by decide)

/-! ## Line-splitting lemmas -/

theorem normCRLF_cons_ne (a : Char) (rest : Str) (ha : a ≠ '\r') :
    normCRLF (a :: rest) = a :: normCRLF rest := by
  rw [normCRLF.eq_def]
  split
  · rename_i heq; cases heq
  · rename_i heq
    rw [List.cons.injEq] at heq
    exact absurd heq.1 ha
  · rename_i heq
    rw [List.cons.injEq] at heq
    rw [heq.1, heq.2]

theorem normCRLF_no_cr : ∀ (s : Str), '\r' ∉ s → normCRLF s = s := by
  intro s
  induction s with
  | nil => intro _; rfl
  | cons a rest ih =>
    intro h
    have ha : a ≠ '\r' := fun he => h (he ▸ List.mem_cons_self a rest)
    have hr : '\r' ∉ rest := fun hm => h (List.mem_cons_of_mem a hm)
    rw [normCRLF_cons_ne a rest ha, ih hr]

theorem splitChar_ne_nil (sep : Char) : ∀ (s : Str), splitChar sep s ≠ [] := by
  intro s
  cases s with
  | nil => simp [splitChar]
  | cons c rest =>
    simp only [splitChar]
    split
    · simp
    · split <;> simp

theorem mem_splitChar (sep : Char) :
    ∀ (s : Str), ∀ l ∈ splitChar sep s, sep ∉ l ∧ ∀ x ∈ l, x ∈ s := by
  intro s
  induction s with
  | nil =>
    intro l hl
    simp [splitChar] at hl
    simp [hl]
  | cons c rest ih =>
    intro l hl
    simp only [splitChar] at hl
    by_cases hc : c = sep
    · rw [if_pos hc] at hl
      rcases List.mem_cons.mp hl with rfl | hl2
      · simp
      · obtain ⟨h1, h2⟩ := ih l hl2
        exact ⟨h1, fun x hx => List.mem_cons_of_mem c (h2 x hx)⟩
    · rw [if_neg hc] at hl
      rcases hsp : splitChar sep rest with _ | ⟨hd, tl⟩
      · exact absurd hsp (splitChar_ne_nil sep rest)
      · rw [hsp] at hl
        rcases List.mem_cons.mp hl with rfl | hl2
        · have hhd := ih hd (hsp ▸ List.mem_cons_self hd tl)
          constructor
          · intro hmem
            rcases List.mem_cons.mp hmem with rfl | hm2
            · exact hc rfl
            · exact hhd.1 hm2
          · intro x hx
            rcases List.mem_cons.mp hx with rfl | hm2
            · exact List.mem_cons_self x rest
            · exact List.mem_cons_of_mem c (hhd.2 x hm2)
        · have := ih l (hsp ▸ List.mem_cons_of_mem hd hl2)
          exact ⟨this.1, fun x hx => List.mem_cons_of_mem c (this.2 x hx)⟩

theorem splitChar_append_sep (sep : Char) :
    ∀ (l t : Str), sep ∉ l → splitChar sep (l ++ sep :: t) = l :: splitChar sep t := by
  intro l
  induction l with
  | nil =>
    intro t _
    simp [splitChar]
  | cons c l' ih =>
    intro t h
    have hc : c ≠ sep := fun he => h (he ▸ List.mem_cons_self c l')
    have hl : sep ∉ l' := fun hm => h (List.mem_cons_of_mem c hm)
    simp only [List.cons_append, splitChar, if_neg hc]
    rw [show l'.append (sep :: t) = l' ++ sep :: t from rfl, ih t hl]

theorem splitChar_single (sep : Char) :
    ∀ (l : Str), sep ∉ l → splitChar sep l = [l] := by
  intro l
  induction l with
  | nil => intro _; rfl
  | cons c l' ih =>
    intro h
    have hc : c ≠ sep := fun he => h (he ▸ List.mem_cons_self c l')
    have hl : sep ∉ l' := fun hm => h (List.mem_cons_of_mem c hm)
    simp only [splitChar, if_neg hc, ih hl]

theorem splitChar_intercalate (sep : Char) :
    ∀ (ls : List Str), ls ≠ [] → (∀ l ∈ ls, sep ∉ l) →
      splitChar sep (List.intercalate [sep] ls) = ls := by
  intro ls
  induction ls with
  | nil => intro h; exact absurd rfl h
  | cons a tl ih =>
    intro _ hall
    cases tl with
    | nil =>
      have : List.intercalate [sep] [a] = a := by simp [List.intercalate]
      rw [this, splitChar_single sep a (hall a (List.mem_cons_self a []))]
    | cons b t =>
      have hcc : List.intercalate [sep] (a :: b :: t) = a ++ sep :: List.intercalate [sep] (b :: t) := by
        simp [List.intercalate, List.intersperse]
      rw [hcc, splitChar_append_sep sep a _ (hall a (List.mem_cons_self a _)),
        ih (by simp) (fun l hl => hall l (List.mem_cons_of_mem a hl))]

theorem mem_intercalate_char (sep : Char) :
    ∀ (ls : List Str) (x : Char), x ∈ List.intercalate [sep] ls →
      x = sep ∨ ∃ l ∈ ls, x ∈ l := by
  intro ls
  induction ls with
  | nil => intro x hx; simp [List.intercalate] at hx
  | cons a tl ih =>
    intro x hx
    cases tl with
    | nil =>
      have : List.intercalate [sep] [a] = a := by simp [List.intercalate]
      rw [this] at hx
      exact Or.inr ⟨a, List.mem_cons_self a [], hx⟩
    | cons b t =>
      have hcc : List.intercalate [sep] (a :: b :: t) = a ++ sep :: List.intercalate [sep] (b :: t) := by
        simp [List.intercalate, List.intersperse]
      rw [hcc] at hx
      rcases List.mem_append.mp hx with hxa | hxt
      · exact Or.inr ⟨a, List.mem_cons_self a _, hxa⟩
      · rcases List.mem_cons.mp hxt with rfl | hx2
        · exact Or.inl rfl
        · rcases ih x hx2 with h | ⟨l, hl, hxl⟩
          · exact Or.inl h
          · exact Or.inr ⟨l, List.mem_cons_of_mem a hl, hxl⟩

theorem splitLines_joinLF (ls : List Str) (hne : ls ≠ [])
    (hclean : ∀ l ∈ ls, '\n' ∉ l ∧ '\r' ∉ l) :
    splitLines (joinLF ls) = ls := by
  have hnocr : '\r' ∉ joinLF ls := by
    intro hmem
    rcases mem_intercalate_char '\n' ls '\r' hmem with h | ⟨l, hl, hxl⟩
    · exact absurd h (by decide)
    · exact (hclean l hl).2 hxl
  rw [splitLines, normCRLF_no_cr _ hnocr]
  exact splitChar_intercalate '\n' ls hne (fun l hl => (hclean l hl).1)

/-! ## Filesystem lemmas -/

theorem fsRead_map_update (p : AbsPath) (c : Str) :
    ∀ fs : FS, (fsRead fs p).isSome →
      fsRead (fs.map (fun e => if e.1 == p then (e.1, c) else e)) p = some c := by
  intro fs
  induction fs with
  | nil => intro h; simp [fsRead] at h
  | cons e fs ih =>
    intro h
    by_cases he : e.1 == p
    · simp [fsRead, List.find?, he]
    · simp only [List.map_cons, if_neg he]
      simp only [fsRead, List.find?_cons, he] at h ⊢
      simpa [fsRead] using ih (by simpa [fsRead] using h)

theorem fsRead_append_single (p : AbsPath) (c : Str) :
    ∀ fs : FS, fsRead fs p = none → fsRead (fs ++ [(p, c)]) p = some c := by
  intro fs
  induction fs with
  | nil => intro _; simp [fsRead, List.find?]
  | cons e fs ih =>
    intro h
    simp only [fsRead, List.find?_cons] at h ⊢
    split at h
    · cases h
    · rename_i he
      simp only [List.cons_append, List.find?_cons]
      split
      · rename_i hcontra
        exact absurd hcontra (by simpa using he)
      · exact ih (by simpa [fsRead] using h)

theorem fsRead_fsWrite_self (fs : FS) (p : AbsPath) (c : Str) :
    fsRead (fsWrite fs p c) p = some c := by
  by_cases h : (fsRead fs p).isSome
  · rw [fsWrite, if_pos h]
    exact fsRead_map_update p c fs h
  · rw [fsWrite, if_neg h]
    exact fsRead_append_single p c fs (Option.not_isSome_iff_eq_none.mp h)

/-! ## C6: line-count accounting of a successful replace -/

theorem lr_eq_or (W : AbsPath) (fs : FS) (fp search replace : Str) (first last : Nat)
    (abs : AbsPath) (raw : Str)
    (hsj : safeJoin W [normalizeWorkspaceRel fp] = Except.ok abs)
    (hforb : isForbiddenPath W abs = none)
    (hread : fsRead fs abs = some raw) :
    lovLineReplace W fs fp search first last replace =
      lrCommit fs abs (normalizeWorkspaceRel fp) raw (max 1 first) (max (max 1 first) last) replace ∨
    ∃ note, lovLineReplace W fs fp search first last replace =
      (LRResult.error (normalizeWorkspaceRel fp) note, fs) := by
  simp only [lovLineReplace, hsj, hforb, hread]
  repeat' split
  all_goals first
    | exact Or.inl rfl
    | exact Or.inr ⟨_, rfl⟩

theorem lr_ok_commit (W : AbsPath) (fs : FS) (fp search replace : Str) (first last : Nat)
    (abs : AbsPath) (raw : Str) (f : Str) (s e : Nat)
    (hsj : safeJoin W [normalizeWorkspaceRel fp] = Except.ok abs)
    (hforb : isForbiddenPath W abs = none)
    (hread : fsRead fs abs = some raw)
    (hok : (lovLineReplace W fs fp search first last replace).1 = LRResult.ok f s e) :
    lovLineReplace W fs fp search first last replace =
      lrCommit fs abs (normalizeWorkspaceRel fp) raw (max 1 first) (max (max 1 first) last) replace := by
  rcases lr_eq_or W fs fp search replace first last abs raw hsj hforb hread with h | ⟨note, h⟩
  · exact h
  · rw [h] at hok
    exact LRResult.noConfusion hok

/-- C6 counterexample: on the one-line file `"A"`, a replace of lines 1-3
(the end line beyond EOF) with a two-line replacement succeeds — the slice
clamps the target block to line 1 — and the resulting file has 2 lines,
whereas the claimed formula L + R − (lastLine − firstLine + 1) gives
1 + 2 − 3 = 0 (computed over the integers), which is wrong. -/
theorem c6_counterexample :
    (lovLineReplace [str "w"] [([str "w", str "g.txt"], str "A")]
        (str "g.txt") (str "A") 1 3 (str "X\nY")).1 =
      LRResult.ok (str "g.txt") 1 2 ∧
    (splitLines ((fsRead (lovLineReplace [str "w"] [([str "w", str "g.txt"], str "A")]
        (str "g.txt") (str "A") 1 3 (str "X\nY")).2 [str "w", str "g.txt"]).getD [])).length = 2 ∧
    (splitLines (str "A")).length = 1 ∧
    ¬ ((2 : Int) = 1 + 2 - (3 - 1 + 1)) := by decide

/-- C6 amended: for every successful line-replace on a CR-free file with a
CR-free replacement, the reported new end line always equals
`(firstLine − 1) + count(replacementLines)` (with the clamped first line),
and whenever the clamped last line does not exceed the file's line count L
the resulting file has exactly `L + R − (lastLine − firstLine + 1)` lines.
(When lastLine exceeds L the file instead ends with `(firstLine − 1) + R`
lines, as the counterexample shows.) -/
theorem c6_amended_line_count
    (W : AbsPath) (fs : FS) (fp search replace : Str) (first last : Nat)
    (abs : AbsPath) (raw : Str) (f : Str) (s e : Nat)
    (hsj : safeJoin W [normalizeWorkspaceRel fp] = Except.ok abs)
    (hforb : isForbiddenPath W abs = none)
    (hread : fsRead fs abs = some raw)
    (hok : (lovLineReplace W fs fp search first last replace).1 = LRResult.ok f s e)
    (hcrraw : '\r' ∉ raw) (hcrrep : '\r' ∉ replace) :
    e = (max 1 first - 1) + (splitChar '\n' (normCRLF replace)).length ∧
    (max (max 1 first) last ≤ (splitLines raw).length →
      (splitLines ((fsRead (lovLineReplace W fs fp search first last replace).2 abs).getD [])).length =
        (splitLines raw).length + (splitChar '\n' (normCRLF replace)).length
          - ((max (max 1 first) last) - (max 1 first) + 1)) := by
  have hcommit := lr_ok_commit W fs fp search replace first last abs raw f s e hsj hforb hread hok
  rw [hcommit] at hok
  simp only [lrCommit] at hok
  constructor
  · exact (LRResult.ok.injEq _ _ _ _ _ _ ▸ hok).2.2.symm
  · intro hend
    rw [hcommit]
    simp only [lrCommit]
    rw [fsRead_fsWrite_self]
    simp only [Option.getD_some]
    set lines := splitLines raw with hlines
    set startL := max 1 first with hstartL
    set endL := max (max 1 first) last with hendL
    set replaceLines := splitChar '\n' (normCRLF replace) with hrepl
    have hlines_eq : lines = splitChar '\n' raw := by
      rw [hlines, splitLines, normCRLF_no_cr _ hcrraw]
    have hclean : ∀ l ∈ lines.take (startL - 1) ++ replaceLines ++ lines.drop endL,
        '\n' ∉ l ∧ '\r' ∉ l := by
      intro l hl
      rcases List.mem_append.mp hl with hl1 | hl3
      · rcases List.mem_append.mp hl1 with hl1 | hl2
        · have hmem : l ∈ lines := List.mem_of_mem_take hl1
          rw [hlines_eq] at hmem
          obtain ⟨h1, h2⟩ := mem_splitChar '\n' raw l hmem
          exact ⟨h1, fun hr => hcrraw (h2 _ hr)⟩
        · have hrepmem := mem_splitChar '\n' (normCRLF replace) l (by rw [← hrepl]; exact hl2)
          refine ⟨hrepmem.1, fun hr => hcrrep ?_⟩
          have := hrepmem.2 _ hr
          rwa [normCRLF_no_cr _ hcrrep] at this
      · have hmem : l ∈ lines := List.mem_of_mem_drop hl3
        rw [hlines_eq] at hmem
        obtain ⟨h1, h2⟩ := mem_splitChar '\n' raw l hmem
        exact ⟨h1, fun hr => hcrraw (h2 _ hr)⟩
    have hne : lines.take (startL - 1) ++ replaceLines ++ lines.drop endL ≠ [] := by
      intro hnil
      rcases List.append_eq_nil.mp hnil with ⟨hnil1, _⟩
      rcases List.append_eq_nil.mp hnil1 with ⟨_, hnil2⟩
      exact splitChar_ne_nil '\n' (normCRLF replace) (hrepl ▸ hnil2)
    rw [splitLines_joinLF _ hne hclean]
    have h1 : 1 ≤ startL := le_max_left 1 first
    have h2 : startL ≤ endL := le_max_left startL last
    have hlen1 : (lines.take (startL - 1)).length = startL - 1 := by
      rw [List.length_take]
      omega
    have hlen2 : (lines.drop endL).length = lines.length - endL := List.length_drop endL lines
    simp only [List.length_append, hlen1, hlen2]
    omega

/-- Witness for the amended C6: replacing lines 2-3 of a five-line file
with a one-line replacement reports end line 2 and leaves a four-line
file, matching L + R − (last − first + 1) = 5 + 1 − 2. -/
theorem c6_witness :
    2 = (max 1 2 - 1) + (splitChar '\n' (normCRLF (str "X"))).length ∧
    (max (max 1 2) 3 ≤ (splitLines (str "L1\nL2\nL3\nL4\nL5")).length →
      (splitLines ((fsRead (lovLineReplace [str "w"]
          [([str "w", str "a.txt"], str "L1\nL2\nL3\nL4\nL5")]
          (str "a.txt") (str "L2\nL3") 2 3 (str "X")).2 [str "w", str "a.txt"]).getD [])).length =
        (splitLines (str "L1\nL2\nL3\nL4\nL5")).length + (splitChar '\n' (normCRLF (str "X"))).length
          - ((max (max 1 2) 3) - (max 1 2) + 1)) :=
  c6_amended_line_count [str "w"] [([str "w", str "a.txt"], str "L1\nL2\nL3\nL4\nL5")]
    (str "a.txt") (str "L2\nL3") (str "X") 2 3 _ _ (str "a.txt") 2 2 rfl rfl rfl (by decide)
    (by decide) (by decide)


theorem infixOf_of_isSub (pat s : Str) (h : isSub pat s = true) : pat <:+: s := by
  rcases Option.isSome_iff_exists.mp (by simpa [isSub] using h) with ⟨i, hi⟩
  exact ⟨s.take i, s.drop (i + pat.length), (idxOf?_decomp pat s i hi).symm⟩

theorem prefix_splitChar_head (c : Char) :
    ∀ (pat s : Str), pat <+: s → (∀ x ∈ pat, x ≠ c) →
      ∀ hd tl, splitChar c s = hd :: tl → pat <+: hd := by
  intro pat
  induction pat with
  | nil => intro s _ _ hd tl _; exact List.nil_prefix
  | cons x p' ih =>
    intro s hpre hnc hd tl hsp
    rcases hpre with ⟨t, ht⟩
    subst ht
    have hx : x ≠ c := hnc x (List.mem_cons_self x p')
    simp only [List.cons_append, splitChar, if_neg hx] at hsp
    rcases hsp2 : splitChar c (p' ++ t) with _ | ⟨hd', tl'⟩
    · exact absurd hsp2 (splitChar_ne_nil c _)
    · rw [show (p' ++ t : Str) = p'.append t from rfl] at hsp2
      rw [hsp2] at hsp
      rw [List.cons.injEq] at hsp
      obtain ⟨hhd, -⟩ := hsp
      have hp' : p' <+: hd' :=
        ih (p' ++ t) ⟨t, rfl⟩ (fun y hy => hnc y (List.mem_cons_of_mem x hy)) hd' tl' hsp2
      rw [← hhd]
      exact List.cons_prefix_cons.mpr ⟨rfl, hp'⟩

theorem splitChar_head_prefixOf (c : Char) :
    ∀ (s : Str) (hd : Str) (tl : List Str), splitChar c s = hd :: tl → hd <+: s := by
  intro s
  induction s with
  | nil =>
    intro hd tl h
    simp only [splitChar, List.cons.injEq] at h
    rw [← h.1]
  | cons a rest ih =>
    intro hd tl h
    simp only [splitChar] at h
    by_cases ha : a = c
    · rw [if_pos ha] at h
      rw [List.cons.injEq] at h
      rw [← h.1]
      exact List.nil_prefix
    · rw [if_neg ha] at h
      rcases hsp : splitChar c rest with _ | ⟨hd', tl'⟩
      · exact absurd hsp (splitChar_ne_nil c rest)
      · rw [hsp, List.cons.injEq] at h
        rcases ih hd' tl' hsp with ⟨t, ht⟩
        rw [← h.1]
        exact ⟨t, by rw [List.cons_append, ht]⟩

theorem infix_of_mem_splitChar (c : Char) :
    ∀ (s : Str), ∀ l ∈ splitChar c s, l <:+: s := by
  intro s
  induction s with
  | nil =>
    intro l hl
    simp [splitChar] at hl
    simp [hl]
  | cons a rest ih =>
    intro l hl
    simp only [splitChar] at hl
    by_cases ha : a = c
    · rw [if_pos ha] at hl
      rcases List.mem_cons.mp hl with rfl | hl2
      · exact ⟨[], a :: rest, rfl⟩
      · exact (ih l hl2).trans (List.infix_cons (List.infix_refl rest))
    · rw [if_neg ha] at hl
      rcases hsp : splitChar c rest with _ | ⟨hd, tl⟩
      · exact absurd hsp (splitChar_ne_nil c rest)
      · rw [hsp] at hl
        rcases List.mem_cons.mp hl with rfl | hl2
        · rcases splitChar_head_prefixOf c rest hd tl hsp with ⟨t, ht⟩
          exact ⟨[], t, by simp [ht]⟩
        · exact ((ih l (hsp ▸ List.mem_cons_of_mem hd hl2)).trans
            (List.infix_cons (List.infix_refl rest)))

theorem infix_in_some_seg (c : Char) :
    ∀ (s pat : Str), pat <:+: s → (∀ x ∈ pat, x ≠ c) →
      ∃ l ∈ splitChar c s, pat <:+: l := by
  intro s
  induction s with
  | nil =>
    intro pat h _
    refine ⟨[], by simp [splitChar], ?_⟩
    rw [List.eq_nil_of_infix_nil h]
  | cons a rest ih =>
    intro pat h hnc
    rcases List.infix_cons_iff.mp h with hpre | hinf
    · by_cases hpe : pat = []
      · subst hpe
        rcases hne : splitChar c (a :: rest) with _ | ⟨hd, tl⟩
        · exact absurd hne (splitChar_ne_nil c _)
        · exact ⟨hd, hne ▸ List.mem_cons_self hd tl, List.nil_infix⟩
      · rcases List.exists_cons_of_ne_nil hpe with ⟨x, p', rfl⟩
        have hxa : x = a := (List.cons_prefix_cons.mp hpre).1
        have hac : a ≠ c := hxa ▸ hnc x (List.mem_cons_self x p')
        simp only [splitChar, if_neg hac]
        rcases hsp : splitChar c rest with _ | ⟨hd, tl⟩
        · exact absurd hsp (splitChar_ne_nil c rest)
        · refine ⟨a :: hd, List.mem_cons_self _ _, ?_⟩
          have hp' : p' <+: hd := by
            apply prefix_splitChar_head c p' rest _ _ hd tl hsp
            · exact (List.cons_prefix_cons.mp hpre).2
            · exact fun y hy => hnc y (List.mem_cons_of_mem x hy)
          have : x :: p' <+: a :: hd := by
            rw [hxa]
            exact List.cons_prefix_cons.mpr ⟨rfl, hp'⟩
          exact this.isInfix
    · rcases ih pat hinf hnc with ⟨l, hl, hpl⟩
      by_cases hac : a = c
      · refine ⟨l, ?_, hpl⟩
        simp only [splitChar, if_pos hac]
        exact List.mem_cons_of_mem _ hl
      · simp only [splitChar, if_neg hac]
        rcases hsp : splitChar c rest with _ | ⟨hd, tl⟩
        · exact absurd hsp (splitChar_ne_nil c rest)
        · rw [hsp] at hl
          rcases List.mem_cons.mp hl with rfl | hl2
          · exact ⟨a :: l, List.mem_cons_self _ _, hpl.trans (List.infix_cons (List.infix_refl l))⟩
          · exact ⟨l, List.mem_cons_of_mem _ hl2, hpl⟩


theorem resolveStep_foldl :
    ∀ (segs : List Seg) (acc : List Seg), (∀ s ∈ segs, s ≠ str "..") →
      List.foldl
        (fun acc s =>
          if s = [] ∨ s = str "." then acc
          else if s = str ".." then acc.dropLast
          else acc ++ [s]) acc segs =
      acc ++ segs.filter (fun s => !(s == [] || s == str ".")) := by
  intro segs
  induction segs with
  | nil => intro acc _; simp
  | cons s segs ih =>
    intro acc hall
    have hs : s ≠ str ".." := hall s (List.mem_cons_self s segs)
    by_cases hskip : s = [] ∨ s = str "."
    · simp only [List.foldl_cons, if_pos hskip, List.filter_cons]
      rw [ih acc (fun x hx => hall x (List.mem_cons_of_mem s hx))]
      have hb : (s == [] || s == str ".") = true := by
        rcases hskip with h | h <;> simp [h]
      rw [hb]
      simp
    · simp only [List.foldl_cons, if_neg hskip, if_neg hs, List.filter_cons]
      rw [ih (acc ++ [s]) (fun x hx => hall x (List.mem_cons_of_mem s hx))]
      have hb : (s == [] || s == str ".") = false := by
        simp only [Bool.or_eq_false_iff, beq_eq_false_iff_ne, ne_eq]
        exact ⟨fun h => hskip (Or.inl h), fun h => hskip (Or.inr h)⟩
      rw [hb]
      simp

theorem resolveSegs_append_no_dotdot (base : AbsPath) (segs : List Seg)
    (hbase : resolveSegs base = base) (hall : ∀ s ∈ segs, s ≠ str "..") :
    resolveSegs (base ++ segs) = base ++ segs.filter (fun s => !(s == [] || s == str ".")) := by
  have hfold : resolveSegs (base ++ segs) =
      List.foldl
        (fun acc s =>
          if s = [] ∨ s = str "." then acc
          else if s = str ".." then acc.dropLast
          else acc ++ [s]) (resolveSegs base) segs := by
    rw [resolveSegs, resolveSegs, List.foldl_append]
  rw [hfold, hbase, resolveStep_foldl segs base hall]

theorem filter_keep_idem (l : List Seg) :
    (l.filter (fun s => !(s == [] || s == str "."))).filter (fun s => !(s == [] || s == str ".")) =
      l.filter (fun s => !(s == [] || s == str ".")) := by
  rw [List.filter_filter]
  congr 1
  funext a
  rw [Bool.and_self]

/-- C2: for a normalized workspace root, joining a relative path none of
whose slash-separated segments contains the substring `..` always succeeds
and yields a path that extends the root (the root's segments are a prefix
of the result); joining a path with a literal `..` segment always fails
with the traversal error. -/
theorem c2_safe_join_traversal (base : AbsPath) (p : Str) (hbase : resolveSegs base = base) :
    ((∀ seg ∈ splitSlash p, ¬ (str "..") <:+: seg) →
      safeJoin base [p] =
        Except.ok (base ++ (splitSlash p).filter (fun s => !(s == [] || s == str "."))) ∧
      base <+: base ++ (splitSlash p).filter (fun s => !(s == [] || s == str "."))) ∧
    ((str "..") ∈ splitSlash p →
      safeJoin base [p] = Except.error (str "Path traversal blocked")) := by
  constructor
  · intro hno
    have hnosub : isSub (str "..") p = false := by
      by_contra hcon
      have htrue : isSub (str "..") p = true := by
        cases h : isSub (str "..") p
        · exact absurd h hcon
        · rfl
      rcases infix_in_some_seg '/' p (str "..") (infixOf_of_isSub _ _ htrue) (by decide) with ⟨l, hl, hinf⟩
      exact hno l hl hinf
    have hall : ∀ s ∈ splitSlash p, s ≠ str ".." := by
      intro s hs he
      exact hno s hs (he ▸ List.infix_refl _)
    have hflat : ([p] : List Str).flatMap splitSlash = splitSlash p := by simp
    have hres : resolveSegs (base ++ ([p] : List Str).flatMap splitSlash) =
        base ++ (splitSlash p).filter (fun s => !(s == [] || s == str ".")) := by
      rw [hflat]
      exact resolveSegs_append_no_dotdot base (splitSlash p) hbase hall
    have hinside : isPathInside (base ++ (splitSlash p).filter (fun s => !(s == [] || s == str "."))) base = true := by
      rw [isPathInside, hbase]
      have hall2 : ∀ s ∈ (splitSlash p).filter (fun s => !(s == [] || s == str ".")), s ≠ str ".." :=
        fun s hs => hall s (List.mem_of_mem_filter hs)
      rw [resolveSegs_append_no_dotdot base _ hbase hall2, filter_keep_idem]
      exact List.isPrefixOf_iff_prefix.mpr (List.prefix_append base _)
    constructor
    · simp only [safeJoin, List.any_cons, List.any_nil, hnosub, Bool.or_false,
        Bool.false_eq_true, if_false, hres, hinside, if_true]
    · exact List.prefix_append base _
  · intro hmem
    have hsub : isSub (str "..") p = true :=
      isSub_of_infix _ p (infix_of_mem_splitChar '/' p (str "..") hmem)
    simp only [safeJoin, List.any_cons, List.any_nil, hsub, Bool.or_false, if_true]

/-- Witness for C2: a plain relative path resolves under the root, and a
path starting with a `..` segment is rejected. -/
theorem c2_witness :
    (safeJoin [str "w"] [str "src/App.tsx"] =
        Except.ok ([str "w"] ++ (splitSlash (str "src/App.tsx")).filter (fun s => !(s == [] || s == str "."))) ∧
      [str "w"] <+: [str "w"] ++ (splitSlash (str "src/App.tsx")).filter (fun s => !(s == [] || s == str "."))) ∧
    safeJoin [str "w"] [str "../x"] = Except.error (str "Path traversal blocked") :=
  ⟨(c2_safe_join_traversal [str "w"] (str "src/App.tsx") rfl).1 (by decide),
   (c2_safe_join_traversal [str "w"] (str "../x") rfl).2 (by decide)⟩

/-! ## C7: the glob compiler -/

/-- C7: the glob compiler does not implement the claimed token semantics.
Compiling `src/**` yields the pattern `src/.[^/]*` — the `**` was first
rewritten to `.*` and the later `*`-pass then rewrote the injected `*`,
leaving "one arbitrary character followed by non-separators".  So
`src/**` fails to match `src/a/b.ts` (while matching `src/a.ts`), even
though `**` is documented to match any sequence including separators.
Likewise `?` compiles to `.`, which matches the separator `/` itself. -/
theorem c7_glob_compiler_bug :
    globToRegExp (str "src/**") = str "src/.[^/]*" ∧
    globTest (str "src/**") (str "src/a/b.ts") = false ∧
    globTest (str "src/**") (str "src/a.ts") = true ∧
    globToRegExp (str "a?c") = str "a.c" ∧
    globTest (str "a?c") (str "a/c") = true := by decide

/-! ## C8: whole-file write refusals -/

theorem byteLen_replicate (n : Nat) (c : Char) : byteLen (List.replicate n c) = n * utf8Size c := by
  induction n with
  | zero => simp [byteLen]
  | succ n ih =>
    simp only [List.replicate_succ, byteLen, List.map_cons, List.sum_cons] at ih ⊢
    rw [ih]
    ring

/-- C8: `lov-write` refuses content larger than 200 KiB outright — before
any filesystem access — and refuses an overwrite whose position-wise line
diff against the existing file exceeds 400 lines; in both cases the
filesystem (and hence any pre-existing file) is returned unchanged. -/
theorem c8_write_refusals (W : AbsPath) (fs : FS) (fp content : Str) :
    (byteLen content > 200 * 1024 →
      lovWrite W fs fp content =
        (WResult.error (normalizeWorkspaceRel fp) (str "Content exceeds 200KB; use lov-line-replace"), fs)) ∧
    (∀ abs prev, byteLen content ≤ 200 * 1024 →
      safeJoin W [normalizeWorkspaceRel fp] = Except.ok abs →
      isForbiddenPath W abs = none →
      fsRead fs abs = some prev →
      changedCount (splitLines prev) (splitChar '\n' (normCRLF content)) > 400 →
      lovWrite W fs fp content =
        (WResult.error (normalizeWorkspaceRel fp) (str "Change exceeds 400 lines; use lov-line-replace"), fs)) := by
  constructor
  · intro h
    simp only [lovWrite, if_pos h]
  · intro abs prev hle hsj hforb hread hch
    have hnot : ¬ (byteLen content > 200 * 1024) := by omega
    simp only [lovWrite, if_neg hnot, hsj, hforb, hread, if_pos hch]

set_option maxRecDepth 40000

/-- Witness for C8: a 204801-byte content is refused on size, and a
401-line overwrite of a 401-line file (every line differing) is refused on
the diff ceiling; both leave the filesystem untouched. -/
theorem c8_witness :
    lovWrite [str "w"] [] (str "big.txt") (List.replicate 204801 'a') =
      (WResult.error (str "big.txt") (str "Content exceeds 200KB; use lov-line-replace"), []) ∧
    lovWrite [str "w"] [([str "w", str "a.txt"], joinLF (List.replicate 401 (str "a")))]
        (str "a.txt") (joinLF (List.replicate 401 (str "b"))) =
      (WResult.error (str "a.txt") (str "Change exceeds 400 lines; use lov-line-replace"),
        [([str "w", str "a.txt"], joinLF (List.replicate 401 (str "a")))]) := by
  constructor
  · apply (c8_write_refusals [str "w"] [] (str "big.txt") (List.replicate 204801 'a')).1
    rw [byteLen_replicate]
    have h1 : utf8Size 'a' = 1 := rfl
    rw [h1]
    omega
  · apply (c8_write_refusals [str "w"] [([str "w", str "a.txt"], joinLF (List.replicate 401 (str "a")))]
      (str "a.txt") (joinLF (List.replicate 401 (str "b")))).2 [str "w", str "a.txt"]
      (joinLF (List.replicate 401 (str "a")))
    · decide
    · decide
    · decide
    · decide
    · decide

/-! ## C9: delete phases -/

/-- C9 counterexample: with the shipped feature flag (`ENABLE_DELETE =
false`), a delete without confirmation on an existing, non-forbidden file
returns the bare `not_enabled` envelope — it does not report the file's
size nor request confirmation, contradicting the claim's description of
the first phase.  (The no-mutation half of the claim does hold.) -/
theorem c9_counterexample :
    (fsRead [([str "w", str "a.txt"], str "hello")] [str "w", str "a.txt"] = some (str "hello") ∧
     isForbiddenPath [str "w"] [str "w", str "a.txt"] = none) ∧
    lovDelete [str "w"] [([str "w", str "a.txt"], str "hello")] (str "a.txt") false =
      (DelResult.notEnabled (str "lov-delete"), [([str "w", str "a.txt"], str "hello")]) := by
  decide

/-- C9 amended: no delete invocation ever mutates the filesystem, under
either feature-flag value and in either confirmation phase; and when the
feature flag is enabled, a delete without confirmation on an existing,
non-forbidden file reports the file's byte size and asks to confirm.
With the shipped flag value (false) every delete instead returns
`not_enabled`. -/
theorem c9_delete_phases :
    (∀ (enable : Bool) (W : AbsPath) (fs : FS) (fp : Str) (confirm : Bool),
      (lovDeleteCore enable W fs fp confirm).2 = fs) ∧
    (∀ (W : AbsPath) (fs : FS) (fp : Str) (abs : AbsPath) (content : Str),
      safeJoin W [normalizeWorkspaceRel fp] = Except.ok abs →
      isForbiddenPath W abs = none →
      fsRead fs abs = some content →
      lovDeleteCore true W fs fp false =
        (DelResult.confirmRequired (normalizeWorkspaceRel fp)
          (str "About to delete " ++ natToStr (byteLen content) ++
            str " bytes. Re-run with confirm:true to proceed."), fs)) := by
  constructor
  · intro enable W fs fp confirm
    simp only [lovDeleteCore]
    repeat' split
    all_goals rfl
  · intro W fs fp abs content hsj hforb hread
    simp only [lovDeleteCore, hsj, hforb, hread, Bool.not_true, Bool.not_false, if_true, if_false]
    simp

/-- Witness for the amended C9: a confirmed delete with the flag enabled
leaves the filesystem unchanged, and an unconfirmed one reports the
5-byte size of the file and requests confirmation. -/
theorem c9_witness :
    (lovDeleteCore true [str "w"] [([str "w", str "a.txt"], str "hello")] (str "a.txt") true).2 =
      [([str "w", str "a.txt"], str "hello")] ∧
    lovDeleteCore true [str "w"] [([str "w", str "a.txt"], str "hello")] (str "a.txt") false =
      (DelResult.confirmRequired (str "a.txt")
        (str "About to delete " ++ natToStr (byteLen (str "hello")) ++
          str " bytes. Re-run with confirm:true to proceed."),
        [([str "w", str "a.txt"], str "hello")]) :=
  ⟨c9_delete_phases.1 true [str "w"] [([str "w", str "a.txt"], str "hello")] (str "a.txt") true,
   c9_delete_phases.2 [str "w"] [([str "w", str "a.txt"], str "hello")] (str "a.txt")
     [str "w", str "a.txt"] (str "hello") rfl rfl rfl⟩

/-! ## C10: view performs no forbidden-path check -/

/-- C10: for an existing file whose path is classified forbidden, `lov-view`
returns the file's content (the default first-500-lines view, no error),
while `lov-line-replace`, `lov-write` (for any content within the size
cap) and `lov-rename` reject the very same path with the forbidden-path
reason, and `lov-delete` (inert as shipped) refuses with `not_enabled`;
none of them mutates the filesystem. -/
theorem c10_view_skips_forbidden_check
    (W : AbsPath) (fs : FS) (fp : Str) (abs : AbsPath) (raw reason : Str)
    (hsj : safeJoin W [normalizeWorkspaceRel fp] = Except.ok abs)
    (hforb : isForbiddenPath W abs = some reason)
    (hread : fsRead fs abs = some raw) :
    lovView W fs fp none =
      ViewResult.ok
        (if (joinLF ((splitLines raw).take (min 500 (splitLines raw).length))).length > 20000
         then (joinLF ((splitLines raw).take (min 500 (splitLines raw).length))).take 20000
         else joinLF ((splitLines raw).take (min 500 (splitLines raw).length))) ∧
    (∀ search replace first last, lovLineReplace W fs fp search first last replace =
      (LRResult.error (normalizeWorkspaceRel fp) reason, fs)) ∧
    (∀ content, byteLen content ≤ 200 * 1024 →
      lovWrite W fs fp content = (WResult.error (normalizeWorkspaceRel fp) reason, fs)) ∧
    (∀ confirm, lovRename W fs fp fp confirm = (RenResult.error (normalizeWorkspaceRel fp) reason, fs)) ∧
    (∀ confirm, lovDelete W fs fp confirm = (DelResult.notEnabled (str "lov-delete"), fs)) := by
  refine ⟨?_, ?_, ?_, ?_, ?_⟩
  · simp only [lovView, hsj, hread]
  · intro search replace first last
    simp only [lovLineReplace, hsj, hforb]
  · intro content hle
    have hnot : ¬ (byteLen content > 200 * 1024) := by omega
    simp only [lovWrite, if_neg hnot, hsj, hforb]
  · intro confirm
    simp only [lovRename, hsj, hforb]
  · intro confirm
    simp [lovDelete, lovDeleteCore, ENABLE_DELETE]

/-- Witness for C10: a `.env` file inside the workspace is readable through
view but rejected by every mutating tool. -/
theorem c10_witness :
    lovView [str "w"] [([str "w", str ".env"], str "SECRET=1")] (str ".env") none =
      ViewResult.ok (str "SECRET=1") ∧
    lovLineReplace [str "w"] [([str "w", str ".env"], str "SECRET=1")] (str ".env")
        (str "SECRET=1") 1 1 (str "y") =
      (LRResult.error (str ".env") (str "Operation not allowed on .env files"),
        [([str "w", str ".env"], str "SECRET=1")]) ∧
    lovWrite [str "w"] [([str "w", str ".env"], str "SECRET=1")] (str ".env") (str "y") =
      (WResult.error (str ".env") (str "Operation not allowed on .env files"),
        [([str "w", str ".env"], str "SECRET=1")]) ∧
    lovRename [str "w"] [([str "w", str ".env"], str "SECRET=1")] (str ".env") (str ".env") false =
      (RenResult.error (str ".env") (str "Operation not allowed on .env files"),
        [([str "w", str ".env"], str "SECRET=1")]) ∧
    lovDelete [str "w"] [([str "w", str ".env"], str "SECRET=1")] (str ".env") false =
      (DelResult.notEnabled (str "lov-delete"), [([str "w", str ".env"], str "SECRET=1")]) :=
  have h := c10_view_skips_forbidden_check [str "w"]
    [([str "w", str ".env"], str "SECRET=1")] (str ".env")
    [str "w", str ".env"] (str "SECRET=1") (str "Operation not allowed on .env files")
    rfl rfl rfl
  ⟨h.1, h.2.1 (str "SECRET=1") (str "y") 1 1, h.2.2.1 (str "y") (by decide),
   h.2.2.2.1 false, h.2.2.2.2 false⟩

end Engine
